import Mathlib

/-!
Verification development for the consensus-pharmacophore computation of
PyPharmer (src/PyPharmer/Pharmacophores.py).  The definitions below are a
shallow embedding of `compute_concensus_pharmacophore` and its two inner
helpers `__compute_cluster` and `__compute_center_of_mass_and_radius`
(source lines 290-392), together with the library calls they make
(scipy.spatial.distance_matrix, scipy pdist / linkage / fcluster,
sklearn l1 normalize, numpy average / max / linalg.norm, pandas groupby).
Floating point numbers are modelled as real numbers.
-/

namespace PyPharmer

/-- Row of the input point table: the columns of the parsed pharmacophore
table that `compute_concensus_pharmacophore` reads (name, x, y, z, color).
Coordinates are modelled as reals. -/
structure Point where
  name : String
  x : ℝ
  y : ℝ
  z : ℝ
  color : String

instance : Inhabited Point := ⟨⟨"", 0, 0, 0, ""⟩⟩

/-- Row of a per-type group table after `__compute_cluster` has populated the
three computed columns (source lines 331, 338, 340): the base point columns
plus cluster, weight and balance. -/
structure Row extends Point where
  cluster : ℕ
  weight : ℕ
  balance : ℝ

instance : Inhabited Row := ⟨⟨default, 0, 0, 0⟩⟩

/-- Python exception observed when running the consensus computation; a group
with two or fewer points makes `__compute_cluster` evaluate
`return linkage,matrix,table` (line 342) with the local variable `linkage`
never assigned, raising UnboundLocalError. -/
inductive PyErr where
  | unboundLocal : PyErr

/-- Row of the returned Concensus table (source lines 381-389). -/
structure ConsRow where
  name : String
  cluster : ℕ
  x : ℝ
  y : ℝ
  z : ℝ
  radius : ℝ
  color : String
  weight : ℕ
  balance : ℝ

/-- Sum of squared componentwise differences of two coordinate vectors;
the quantity under the square root of a Euclidean distance. -/
def sqDiffSum : List ℝ → List ℝ → ℝ
  | a :: as, b :: bs => (a - b) ^ 2 + sqDiffSum as bs
  | _, _ => 0

/-- Euclidean distance between two coordinate vectors, as computed by
scipy.spatial.distance_matrix entries, scipy pdist with the default
euclidean metric, and numpy.linalg.norm of a difference. -/
noncomputable def euclid (u v : List ℝ) : ℝ := Real.sqrt (sqDiffSum u v)

/-- Coordinate row [x, y, z] of a point, i.e. one row of
`table[['x','y','z']]` (source line 326). -/
def pointRow (p : Point) : List ℝ := [p.x, p.y, p.z]

/-- Embedding of `scipy.spatial.distance_matrix(x=table[['x','y','z']],
y=table[['x','y','z']])` (source line 326): the square matrix of pairwise
Euclidean distances between the group's 3D points. -/
noncomputable def distance_matrix (pts : List Point) : List (List ℝ) :=
  pts.map (fun p => pts.map (fun q => euclid (pointRow p) (pointRow q)))

/-- Embedding of `scipy.cluster.hierarchy.distance.pdist` with the default
euclidean metric: given a list of observation vectors, the condensed list of
distances between observation i and j for all i < j, in scipy order.  In the
source (line 327) this is applied to the rows of the square distance matrix
itself. -/
noncomputable def pdist : List (List ℝ) → List ℝ
  | [] => []
  | r :: rs => rs.map (fun s => euclid r s) ++ pdist rs

/-- Embedding of numpy max over a one dimensional array (`dm.max()`,
source line 329).  Numpy raises on an empty array; the 0 returned for [] here
is never reached on the calls the source makes (the array has length
n(n-1)/2 with n at least 3). -/
def npMax (l : List ℝ) : ℝ :=
  match l with
  | [] => 0
  | x :: xs => xs.foldl max x

/-- Embedding of pandas Series.mean (`clus['balance'].mean()`, source
line 389); clusters handed to it are never empty. -/
noncomputable def npMean (l : List ℝ) : ℝ := l.sum / (l.length : ℝ)

/-- Embedding of `sklearn.preprocessing.normalize([w], norm="l1")[0]`
(source line 340): divide every entry by the sum of absolute values; sklearn
returns the row unchanged when that sum is zero. -/
noncomputable def l1normalize (w : List ℝ) : List ℝ :=
  let s := (w.map (fun v => |v|)).sum
  if s = 0 then w else w.map (fun v => v / s)

/-- Index into a scipy condensed distance list for the pair i < j of n
observations. -/
def condIdx (n i j : ℕ) : ℕ := i * n - i * (i + 1) / 2 + (j - i - 1)

/-- Lookup of the distance between observations i and j in a condensed
distance list for n observations (0 on the diagonal). -/
def dmLookup (dm : List ℝ) (n i j : ℕ) : ℝ :=
  if i < j then dm.getD (condIdx n i j) 0
  else if j < i then dm.getD (condIdx n j i) 0
  else 0

/-- One merge step of the agglomerative clustering recorded by
`scipy.cluster.hierarchy.linkage` (source line 328).  Instead of scipy's
numeric cluster ids the two merged clusters are carried as their lists of
original observation indices; the merge height is the complete-linkage
distance at which they merge. -/
structure LinkStep where
  left : List ℕ
  right : List ℕ
  height : ℝ

/-- All unordered pairs of elements of a list (each pair of distinct
positions once). -/
def allPairs : List α → List (α × α)
  | [] => []
  | x :: xs => xs.map (fun y => (x, y)) ++ allPairs xs

/-- First element minimising f among x :: xs. -/
noncomputable def pickMin (f : α → ℝ) (x : α) (xs : List α) : α :=
  xs.foldl (fun best y => if f y < f best then y else best) x

/-- Complete-linkage distance between two clusters: the maximum of the
pairwise observation distances across the two member lists (`method=
'complete'`, source line 328). -/
noncomputable def clusterDist (d : ℕ → ℕ → ℝ) (A B : List ℕ) : ℝ :=
  npMax ((A.map (fun a => B.map (fun b => d a b))).flatten)

/-- Agglomerative loop of scipy linkage: while at least two clusters remain,
merge the pair at minimal complete-linkage distance, recording the step.
The fuel argument is the number of merges still to perform (n - 1 in
total). -/
noncomputable def linkIter (d : ℕ → ℕ → ℝ) : ℕ → List (List ℕ) → List LinkStep
  | 0, _ => []
  | Nat.succ fuel, active =>
    match allPairs active with
    | [] => []
    | p :: ps =>
      let best := pickMin (fun q => clusterDist d q.1 q.2) p ps
      ⟨best.1, best.2, clusterDist d best.1 best.2⟩ ::
        linkIter d fuel (((active.erase best.1).erase best.2) ++ [best.1 ++ best.2])

/-- Singleton starting partition of n observations, also the initial active
cluster list of the linkage loop. -/
def initPartition (n : ℕ) : List (List ℕ) := (List.range n).map (fun i => [i])

/-- Embedding of `scipy.cluster.hierarchy.linkage(dm, method='complete')`
(source line 328): n - 1 complete-linkage merge steps over the n
observations whose condensed distances are dm. -/
noncomputable def linkageOf (dm : List ℝ) (n : ℕ) : List LinkStep :=
  linkIter (dmLookup dm n) (n - 1) (initPartition n)

/-- Merge the blocks of a partition that contain a or b into a single block.
When neither point lies in any block the partition is returned unchanged
(that guard is never reached on merge steps produced by the linkage loop,
whose member lists are always drawn from the current partition). -/
def mergeBlocks (part : List (List ℕ)) (a b : ℕ) : List (List ℕ) :=
  let touched := part.filter (fun blk => decide (a ∈ blk) || decide (b ∈ blk))
  let rest := part.filter (fun blk => !(decide (a ∈ blk) || decide (b ∈ blk)))
  if touched = [] then part else rest ++ [touched.flatten]

/-- Flat partition obtained by cutting the dendrogram at height t: starting
from singletons, apply every merge step whose height is at most t.  This is
the fcluster 'distance' criterion (observations are in one flat cluster
exactly when they are connected by merges at cophenetic distance at most t;
complete linkage is monotone, so its merge heights are nondecreasing). -/
noncomputable def cutPartition (steps : List LinkStep) (t : ℝ) (n : ℕ) : List (List ℕ) :=
  steps.foldl
    (fun part st =>
      if st.height ≤ t then mergeBlocks part (st.left.headD 0) (st.right.headD 0) else part)
    (initPartition n)

/-- Embedding of `scipy.cluster.hierarchy.fcluster(linkage, t, 'distance')`
(source line 329): the list of 1-based flat cluster labels of the n
observations, observation i receiving one plus the index of its block in the
cut partition. -/
noncomputable def fcluster (steps : List LinkStep) (t : ℝ) (n : ℕ) : List ℕ :=
  (List.range n).map (fun i => (cutPartition steps t n).findIdx (fun blk => decide (i ∈ blk)) + 1)

/-- Weight column of a type group (source lines 334-338): for each row of the
distance matrix, the number of entries at most 1.5, i.e.
`len([distance for distance in row if distance <= 1.5])`. -/
noncomputable def weightsOf (pts : List Point) : List ℕ :=
  (distance_matrix pts).map (fun row => (row.filter (fun d => decide (d ≤ 1.5))).length)

/-- Real valued view of a list of integer weights. -/
noncomputable def natCasts (l : List ℕ) : List ℝ := l.map Nat.cast

/-- Balance column of a type group (source line 340):
`normalize([weight], norm="l1")[0]`. -/
noncomputable def balancesOf (pts : List Point) : List ℝ :=
  l1normalize (natCasts (weightsOf pts))

/-- Condensed distances `dm = sch.distance.pdist(matrix)` (source line 327):
pdist applied to the square distance matrix itself, so the distances between
the rows of that matrix. -/
noncomputable def dmOf (pts : List Point) : List ℝ := pdist (distance_matrix pts)

/-- Dendrogram cut threshold `0.17*dm.max()` (source line 329).  The
constant 0.17 is hardcoded; the h_dist argument of
`compute_concensus_pharmacophore` does not appear. -/
noncomputable def cutThreshold (pts : List Point) : ℝ := 0.17 * npMax (dmOf pts)

/-- Cluster column of a type group:
`sch.fcluster(linkage, 0.17*dm.max(), 'distance')` (source line 329). -/
noncomputable def clusterIdsOf (pts : List Point) : List ℕ :=
  fcluster (linkageOf (dmOf pts) pts.length) (cutThreshold pts) pts.length

/-- Number of flat clusters the cut produces on a type group. -/
noncomputable def numClusters (pts : List Point) : ℕ :=
  (cutPartition (linkageOf (dmOf pts) pts.length) (cutThreshold pts) pts.length).length

/-- Per-type group table after the three column assignments
`table['cluster']`, `table['weight']`, `table['balance']` (source lines 331,
338, 340).  Pandas `groupby(...).get_group` hands `__compute_cluster` a copy
of the group's rows, so these assignments build a new table and the caller's
table is untouched. -/
noncomputable def rowsOf (pts : List Point) : List Row :=
  (List.range pts.length).map (fun i =>
    ⟨pts.getD i default, (clusterIdsOf pts).getD i 0, (weightsOf pts).getD i 0,
      (balancesOf pts).getD i 0⟩)

/-- Embedding of the inner function `__compute_cluster` (source lines
322-342).  When the group has more than 2 points it returns the linkage, the
distance matrix and the group table with the cluster, weight and balance
columns populated; otherwise the guarded block is skipped and the
`return linkage,matrix,table` statement raises UnboundLocalError, since the
local variable `linkage` was never assigned. -/
noncomputable def computeCluster (pts : List Point) :
    Except PyErr (List LinkStep × List (List ℝ) × List Row) :=
  if 2 < pts.length then
    Except.ok (linkageOf (dmOf pts) pts.length, distance_matrix pts, rowsOf pts)
  else Except.error PyErr.unboundLocal

/-- Sum of the weight column of a cluster, the denominator of the numpy
weighted average. -/
noncomputable def sumWeights (rows : List Row) : ℝ :=
  (rows.map (fun r => (r.weight : ℝ))).sum

/-- Embedding of `np.average([table['x'],table['y'],table['z']], axis=1,
weights=table['weight'])` (source line 346): the componentwise weighted mean
of the member coordinates, weighted by the weight column. -/
noncomputable def centerOfMass (rows : List Row) : List ℝ :=
  [(rows.map (fun r => (r.weight : ℝ) * r.x)).sum / sumWeights rows,
   (rows.map (fun r => (r.weight : ℝ) * r.y)).sum / sumWeights rows,
   (rows.map (fun r => (r.weight : ℝ) * r.z)).sum / sumWeights rows]

/-- Raw geometric radius of a cluster (source line 347): half the maximum
Euclidean distance from the weighted centroid to a member point. -/
noncomputable def rawRadius (rows : List Row) : ℝ :=
  npMax (rows.map (fun r => euclid (centerOfMass rows) [r.x, r.y, r.z])) / 2

/-- Embedding of the inner function `__compute_center_of_mass_and_radius`
(source lines 344-354): weighted centroid, raw radius, then the type
dependent floor (radius raised to 1 when below 1 and the cluster's name
column contains "Hydrophobic", raised to 0.5 when below 0.5 and it does
not). -/
noncomputable def computeCenterOfMassAndRadius (rows : List Row) : List ℝ × ℝ :=
  let radius := rawRadius rows
  (centerOfMass rows,
    if radius < 1 ∧ "Hydrophobic" ∈ rows.map (fun r => r.name) then 1
    else if radius < 0.5 ∧ ¬("Hydrophobic" ∈ rows.map (fun r => r.name)) then 0.5
    else radius)

/-- Insert a natural number into a sorted list (ascending). -/
def insertLE (x : ℕ) : List ℕ → List ℕ
  | [] => [x]
  | y :: ys => if x ≤ y then x :: y :: ys else y :: insertLE x ys

/-- Insertion sort for natural numbers, ascending; pandas groupby iterates
its keys in sorted order. -/
def sortNat (l : List ℕ) : List ℕ := l.foldr insertLE []

/-- Insert a string into a sorted list (ascending). -/
def insertStrLE (x : String) : List String → List String
  | [] => [x]
  | y :: ys => if x ≤ y then x :: y :: ys else y :: insertStrLE x ys

/-- Insertion sort for strings, ascending. -/
def sortStrings (l : List String) : List String := l.foldr insertStrLE []

/-- Keys of `table.groupby('name')` in the order `Descriptors.groups`
iterates them (source lines 359-361): the distinct name values, sorted. -/
def groupNames (t : List Point) : List String :=
  sortStrings (t.map (fun p => p.name)).dedup

/-- Consensus rows contributed by one type group (source lines 377-390): for
each cluster id of the group in sorted order, the reducer output assembled
into one row (name from the group key, color from the first member, weight
the member count, balance the mean member balance). -/
noncomputable def reduceClusters (g : String) (rows : List Row) : List ConsRow :=
  (sortNat (rows.map (fun r => r.cluster)).dedup).map (fun cg =>
    let clus := rows.filter (fun r => r.cluster == cg)
    let comr := computeCenterOfMassAndRadius clus
    ⟨g, cg, comr.1.getD 0 0, comr.1.getD 1 0, comr.1.getD 2 0, comr.2,
      (clus.headD default).color, clus.length, npMean (clus.map (fun r => r.balance))⟩)

/-- Iteration over the name groups (source lines 361-390): for each group in
order run `__compute_cluster`, record the group's matrix and linkage in
Links, and append the group's consensus rows.  An exception raised for any
group aborts the whole call.  The save_data_per_descriptor branch only
writes diagnostic files (pymol session, seaborn heatmap) and does not touch
the computed tables, so it is modelled as a no-op. -/
noncomputable def assembleGroups (t : List Point) :
    List String → Except PyErr (List ConsRow × List (String × List (List ℝ) × List LinkStep))
  | [] => Except.ok ([], [])
  | g :: gs =>
    match computeCluster (t.filter (fun p => p.name == g)) with
    | Except.error e => Except.error e
    | Except.ok (lk, mx, rows) =>
      match assembleGroups t gs with
      | Except.error e => Except.error e
      | Except.ok (cons, links) =>
        Except.ok (reduceClusters g rows ++ cons, (g, mx, lk) :: links)

/-- Embedding of `compute_concensus_pharmacophore` (source lines 290-392).
The first component is the returned pair (Concensus, Links), or the Python
exception the call raises; the second component is the caller's point table
as observable after the call.  The pandas groupby/get_group machinery hands
each inner call a copy of the group rows, so the computation never writes
the caller's table and that second component is the input itself.  The
save_data_per_descriptor flag only controls diagnostic file output and the
h_dist argument is never read by the body (line 329 hardcodes 0.17). -/
noncomputable def compute_concensus_pharmacophore (t : List Point)
    (save_data_per_descriptor : Bool) (h_dist : ℝ) :
    Except PyErr (List ConsRow × List (String × List (List ℝ) × List LinkStep)) × List Point :=
  (assembleGroups t (groupNames t), t)

/-- Specification-side notion for C5: the Euclidean distance between two
pharmacophoric points, written directly from the coordinates. -/
noncomputable def dist3 (p q : Point) : ℝ :=
  Real.sqrt ((p.x - q.x) ^ 2 + (p.y - q.y) ^ 2 + (p.z - q.z) ^ 2)

/-- Specification-side notion for C3: the condensed form of a square matrix
in the spec's sense, its upper triangle without the diagonal, row by row.
The first argument counts how many leading entries of the current row lie on
or left of the diagonal. -/
def condensedForm : ℕ → List (List ℝ) → List ℝ
  | _, [] => []
  | k, row :: rest => row.drop (k + 1) ++ condensedForm (k + 1) rest

/-- Euclidean distance between rows i and j of a matrix (rows beyond the end
read as empty). -/
noncomputable def rowDistAt (M : List (List ℝ)) (i j : ℕ) : ℝ :=
  euclid (M.getD i []) (M.getD j [])

/-- Index-based description of what pdist of a matrix actually is: the
Euclidean distances between rows i and j of the matrix for all i < j in
condensed order.  Used to state the amended form of C3. -/
noncomputable def amendedDm (M : List (List ℝ)) : List ℝ :=
  ((List.range M.length).map (fun i =>
    ((List.range M.length).drop (i + 1)).map (fun j => rowDistAt M i j))).flatten

/-- Invariant of the flat clustering partitions: the blocks are nonempty and
their concatenation is a permutation of range n, so every observation lies in
exactly one block. -/
def GoodPartition (n : ℕ) (part : List (List ℕ)) : Prop :=
  List.Perm part.flatten (List.range n) ∧ ∀ blk ∈ part, blk ≠ []

/-- Concrete two point Hydrophobic table: a type group with 2 points. -/
noncomputable def tbl2 : List Point :=
  [⟨"Hydrophobic", 0, 0, 0, "green"⟩, ⟨"Hydrophobic", 1, 0, 0, "green"⟩]

/-- Concrete three point collinear table at x = 0, 1, 2. -/
noncomputable def tbl3 : List Point :=
  [⟨"Aromatic", 0, 0, 0, "purple"⟩, ⟨"Aromatic", 1, 0, 0, "purple"⟩,
   ⟨"Aromatic", 2, 0, 0, "purple"⟩]

/-- Concrete one row cluster with a non Hydrophobic name and weight 1. -/
noncomputable def rows1 : List Row :=
  [⟨⟨"Aromatic", 0, 0, 0, "purple"⟩, 1, 1, 1⟩]

/-! Helper lemmas. -/

/-- Folding max never drops below the seed. -/
lemma le_foldl_max_self : ∀ (l : List ℝ) (a : ℝ), a ≤ l.foldl max a := by
  intro l
  induction l with
  | nil => intro a; exact le_refl a
  | cons y ys ih => intro a; exact le_trans (le_max_left a y) (ih (max a y))

/-- Folding max never drops below a list member. -/
lemma le_foldl_max_of_mem {x : ℝ} : ∀ (l : List ℝ) (a : ℝ), x ∈ l → x ≤ l.foldl max a := by
  intro l
  induction l with
  | nil => intro a h; cases h
  | cons y ys ih =>
    intro a h
    cases h with
    | head =>
      exact le_trans (le_max_right a x) (le_foldl_max_self ys (max a x))
    | tail _ hmem => exact ih (max a y) hmem

/-- The result of folding max is the seed or a member. -/
lemma foldl_max_mem : ∀ (l : List ℝ) (a : ℝ), l.foldl max a ∈ a :: l := by
  intro l
  induction l with
  | nil => intro a; exact List.mem_singleton.mpr rfl
  | cons y ys ih =>
    intro a
    have h := ih (max a y)
    rcases List.mem_cons.mp h with h1 | h2
    · rw [List.foldl_cons, h1]
      rcases max_choice a y with hm | hm
      · rw [hm]; exact List.mem_cons_self _ _
      · rw [hm]; exact List.mem_cons_of_mem _ (List.mem_cons_self _ _)
    · exact List.mem_cons_of_mem _ (List.mem_cons_of_mem _ h2)

/-- Every member of a nonempty list is at most its npMax. -/
lemma le_npMax_of_mem {l : List ℝ} {x : ℝ} (h : x ∈ l) : x ≤ npMax l := by
  cases l with
  | nil => cases h
  | cons y ys =>
    rcases List.mem_cons.mp h with h1 | h2
    · rw [h1, npMax]; exact le_foldl_max_self ys y
    · rw [npMax]; exact le_foldl_max_of_mem ys y h2

/-- The npMax of a nonempty list is one of its members. -/
lemma npMax_mem {l : List ℝ} (h : l ≠ []) : npMax l ∈ l := by
  cases l with
  | nil => exact absurd rfl h
  | cons y ys => rw [npMax]; exact foldl_max_mem ys y

/-- Dividing every entry of a list by s divides its sum by s. -/
lemma sum_map_div (l : List ℝ) (s : ℝ) : (l.map (fun v => v / s)).sum = l.sum / s := by
  induction l with
  | nil => simp
  | cons x xs ih => simp [ih, add_div]

/-- Reading a list back off its index range is the identity. -/
lemma range_map_getD (l : List α) (d : α) :
    (List.range l.length).map (fun i => l.getD i d) = l := by
  induction l with
  | nil => simp
  | cons x xs ih =>
    rw [List.length_cons, List.range_succ_eq_map, List.map_cons, List.map_map]
    simp only [Function.comp_def, List.getD_cons_zero, List.getD_cons_succ]
    rw [ih]

/-- C9: `compute_concensus_pharmacophore` never modifies the caller's input
table.  The cluster, weight and balance columns are added only to the
per-type copies produced by pandas get_group (the base point columns of
those copies are exactly the group's input rows), and after the call the
caller's table is equal to what it was before. -/
theorem c9_input_table_unmodified :
    ∀ (t : List Point) (save : Bool) (hd : ℝ),
      (compute_concensus_pharmacophore t save hd).2 = t ∧
        (rowsOf t).map (fun r => r.toPoint) = t := by
  intro t save hd
  constructor
  · rfl
  · rw [rowsOf, List.map_map]
    simpa using range_map_getD t default

/-- C10: the result of `compute_concensus_pharmacophore` does not depend on
the h_dist argument; the body never reads it (line 329 hardcodes 0.17), so
any two values of h_dist give equal Concensus tables and equal Links
mappings. -/
theorem c10_h_dist_independent :
    ∀ (t : List Point) (save : Bool) (a b : ℝ),
      compute_concensus_pharmacophore t save a = compute_concensus_pharmacophore t save b := by
  intro t save a b
  rfl

/-- C1: the claim says a feature-type group with 2 or fewer points is
skipped silently and yields zero consensus rows.  The code instead evaluates
`return linkage,matrix,table` with the local `linkage` unassigned, raising
UnboundLocalError and aborting the whole call: on a table whose single
Hydrophobic group has exactly 2 points the embedded computation returns the
exception, not a Concensus table. -/
theorem c1_two_point_group_raises :
    (compute_concensus_pharmacophore tbl2 true 0.17).1 = Except.error PyErr.unboundLocal := by
  rfl

/-- Squared componentwise differences of a vector with itself vanish. -/
lemma sqDiffSum_self : ∀ (u : List ℝ), sqDiffSum u u = 0 := by
  intro u
  induction u with
  | nil => rfl
  | cons a as ih => simp [sqDiffSum, ih]

/-- Euclidean distance of a vector to itself is zero (diagonal of the
distance matrix). -/
lemma euclid_self (u : List ℝ) : euclid u u = 0 := by
  rw [euclid, sqDiffSum_self, Real.sqrt_zero]

/-- Entrywise the distance matrix is the point distance dist3. -/
lemma euclid_pointRow (p q : Point) : euclid (pointRow p) (pointRow q) = dist3 p q := by
  rw [euclid, dist3, pointRow, pointRow]
  congr 1
  simp [sqDiffSum]
  ring

/-- The distance matrix has one row per point. -/
lemma length_weightsOf (pts : List Point) : (weightsOf pts).length = pts.length := by
  simp [weightsOf, distance_matrix]

/-- Row i of the distance matrix lists the distances from point i. -/
lemma getElem_distance_matrix (pts : List Point) (i : ℕ)
    (hmat : i < (distance_matrix pts).length) :
    (distance_matrix pts)[i] =
      pts.map (fun q => euclid (pointRow (pts.getD i default)) (pointRow q)) := by
  have hi : i < pts.length := by simpa [distance_matrix] using hmat
  simp only [distance_matrix, List.getElem_map, List.getD_eq_getElem pts default hi]

/-- The weight of point i counts the points within distance 1.5 of it. -/
lemma weightsOf_getD (pts : List Point) (i : ℕ) (hi : i < pts.length) :
    (weightsOf pts).getD i 0 =
      (pts.filter (fun q => decide (dist3 (pts.getD i default) q ≤ 1.5))).length := by
  have hlen : i < (weightsOf pts).length := by rw [length_weightsOf]; exact hi
  have hmat : i < (distance_matrix pts).length := by simp [distance_matrix, hi]
  rw [List.getD_eq_getElem _ _ hlen]
  simp only [weightsOf]
  rw [List.getElem_map, getElem_distance_matrix pts i hmat, List.filter_map, List.length_map]
  congr 1
  apply List.filter_congr
  intro q _
  simp only [Function.comp_def, euclid_pointRow]

/-- Every weight is at least 1: the zero self distance on the diagonal always
passes the 1.5 test. -/
lemma one_le_weightsOf (pts : List Point) (i : ℕ) (hi : i < pts.length) :
    1 ≤ (weightsOf pts).getD i 0 := by
  have hlen : i < (weightsOf pts).length := by rw [length_weightsOf]; exact hi
  have hmat : i < (distance_matrix pts).length := by simp [distance_matrix, hi]
  rw [List.getD_eq_getElem _ _ hlen]
  simp only [weightsOf]
  rw [List.getElem_map, getElem_distance_matrix pts i hmat]
  have hm : euclid (pointRow (pts.getD i default)) (pointRow (pts.getD i default)) ∈
      pts.map (fun q => euclid (pointRow (pts.getD i default)) (pointRow q)) := by
    apply List.mem_map_of_mem
    rw [List.getD_eq_getElem pts default hi]
    exact pts.getElem_mem hi
  have hp : decide (euclid (pointRow (pts.getD i default)) (pointRow (pts.getD i default)) ≤ 1.5)
      = true := by
    rw [euclid_self]
    norm_num
  have hpos : 0 < (List.filter (fun d => decide (d ≤ 1.5))
      (pts.map (fun q => euclid (pointRow (pts.getD i default)) (pointRow q)))).length := by
    rw [← List.countP_eq_length_filter]
    exact List.countP_pos_iff.mpr ⟨_, hm, hp⟩
  omega

/-- The real valued weight list of a nonempty group has positive sum. -/
lemma sum_natCasts_weights_pos (pts : List Point) (hne : pts ≠ []) :
    0 < (natCasts (weightsOf pts)).sum := by
  apply List.sum_pos
  · intro x hx
    obtain ⟨w, hw, rfl⟩ := List.mem_map.mp hx
    obtain ⟨j, hj, rfl⟩ := List.mem_iff_getElem.mp hw
    have h1 := one_le_weightsOf pts j (by rw [← length_weightsOf]; exact hj)
    rw [List.getD_eq_getElem _ _ hj] at h1
    exact_mod_cast lt_of_lt_of_le zero_lt_one (by exact_mod_cast h1)
  · intro h0
    apply hne
    have hl := congrArg List.length h0
    simp [natCasts, length_weightsOf] at hl
    exact hl

/-- On a nonempty group the l1 normalisation divides each weight by the
weight sum. -/
lemma balancesOf_eq (pts : List Point) (hne : pts ≠ []) :
    balancesOf pts = (natCasts (weightsOf pts)).map
      (fun v => v / (natCasts (weightsOf pts)).sum) := by
  have habs : ((natCasts (weightsOf pts)).map (fun v => |v|)).sum
      = (natCasts (weightsOf pts)).sum := by
    rw [natCasts, List.map_map]
    congr 1
    apply List.map_congr_left
    intro w _
    simp [abs_of_nonneg]
  rw [balancesOf, l1normalize]
  simp only [habs]
  rw [if_neg (ne_of_gt (sum_natCasts_weights_pos pts hne))]

/-- C4: in a type group with more than 2 points, each point's balance equals
its weight divided by the L1 sum of the group's weights, and the balance
column sums to 1. -/
theorem c4_balance_l1_normalized (pts : List Point) (h : 2 < pts.length) :
    (∀ i, i < pts.length →
        (balancesOf pts).getD i 0
          = ((weightsOf pts).getD i 0 : ℝ) / (natCasts (weightsOf pts)).sum)
    ∧ (balancesOf pts).sum = 1 := by
  have hne : pts ≠ [] := by
    intro h0
    rw [h0] at h
    simp at h
  have hS := sum_natCasts_weights_pos pts hne
  constructor
  · intro i hi
    have hlen : i < (weightsOf pts).length := by rw [length_weightsOf]; exact hi
    have h1 : i < (natCasts (weightsOf pts)).length := by
      rw [natCasts, List.length_map]; exact hlen
    have h2 : i < ((natCasts (weightsOf pts)).map
        (fun v => v / (natCasts (weightsOf pts)).sum)).length := by
      rw [List.length_map]; exact h1
    rw [balancesOf_eq pts hne, List.getD_eq_getElem _ _ h2, List.getElem_map,
      List.getD_eq_getElem _ _ hlen]
    simp [natCasts]
  · rw [balancesOf_eq pts hne, sum_map_div, div_self (ne_of_gt hS)]

/-- C4 witness: the hypothesis and conclusion hold at the concrete three
point table tbl3. -/
theorem c4_balance_l1_normalized_witness :
    2 < tbl3.length ∧
      ((∀ i, i < tbl3.length →
          (balancesOf tbl3).getD i 0
            = ((weightsOf tbl3).getD i 0 : ℝ) / (natCasts (weightsOf tbl3)).sum)
       ∧ (balancesOf tbl3).sum = 1) :=
  ⟨by decide, c4_balance_l1_normalized tbl3 (by decide)⟩

/-- C5: in a type group with more than 2 points, each point's weight equals
the number of group points (itself included) within Euclidean distance 1.5
of it, and so every weight is at least 1. -/
theorem c5_weight_is_proximity_count (pts : List Point) (h : 2 < pts.length) :
    ∀ i, i < pts.length →
      (weightsOf pts).getD i 0
          = (pts.filter (fun q => decide (dist3 (pts.getD i default) q ≤ 1.5))).length
        ∧ 1 ≤ (weightsOf pts).getD i 0 := by
  intro i hi
  exact ⟨weightsOf_getD pts i hi, one_le_weightsOf pts i hi⟩

/-- C5 witness: the hypothesis and conclusion hold at the concrete three
point table tbl3. -/
theorem c5_weight_is_proximity_count_witness :
    2 < tbl3.length ∧
      ∀ i, i < tbl3.length →
        (weightsOf tbl3).getD i 0
            = (tbl3.filter (fun q => decide (dist3 (tbl3.getD i default) q ≤ 1.5))).length
          ∧ 1 ≤ (weightsOf tbl3).getD i 0 :=
  ⟨by decide, c5_weight_is_proximity_count tbl3 (by decide)⟩

/-- Weighted sum of deviations splits into weighted sum minus scaled weight
sum. -/
lemma sum_map_weight_mul_sub (l : List Row) (f : Row → ℝ) (c : ℝ) :
    (l.map (fun r => (r.weight : ℝ) * (f r - c))).sum
      = (l.map (fun r => (r.weight : ℝ) * f r)).sum
        - c * (l.map (fun r => (r.weight : ℝ))).sum := by
  induction l with
  | nil => simp
  | cons r rs ih =>
    simp [ih]
    ring

/-- C6: for a nonempty cluster with positive weight sum, the consensus
coordinates returned by the reducer are the weight-weighted average of the
member coordinates (the weighted deviations from them sum to zero in every
coordinate), and the pre-clamp radius is half the maximum Euclidean distance
from that centroid to a member point (every member lies within twice the raw
radius and some member attains it). -/
theorem c6_centroid_and_radius (rows : List Row) (hne : rows ≠ [])
    (hW : 0 < sumWeights rows) :
    ((rows.map (fun r => (r.weight : ℝ)
        * (r.x - (computeCenterOfMassAndRadius rows).1.getD 0 0))).sum = 0
      ∧ (rows.map (fun r => (r.weight : ℝ)
        * (r.y - (computeCenterOfMassAndRadius rows).1.getD 1 0))).sum = 0
      ∧ (rows.map (fun r => (r.weight : ℝ)
        * (r.z - (computeCenterOfMassAndRadius rows).1.getD 2 0))).sum = 0)
    ∧ (∀ r ∈ rows,
        euclid ((computeCenterOfMassAndRadius rows).1) [r.x, r.y, r.z] ≤ 2 * rawRadius rows)
    ∧ (∃ r ∈ rows,
        euclid ((computeCenterOfMassAndRadius rows).1) [r.x, r.y, r.z] = 2 * rawRadius rows) := by
  have hcom : (computeCenterOfMassAndRadius rows).1 = centerOfMass rows := rfl
  have h2r : 2 * rawRadius rows
      = npMax (rows.map (fun r => euclid (centerOfMass rows) [r.x, r.y, r.z])) := by
    rw [rawRadius]
    ring
  have hWne : sumWeights rows ≠ 0 := ne_of_gt hW
  refine ⟨⟨?_, ?_, ?_⟩, ?_, ?_⟩
  · rw [hcom]
    have hg : (centerOfMass rows).getD 0 0
        = (rows.map (fun r => (r.weight : ℝ) * r.x)).sum / sumWeights rows := by
      simp [centerOfMass]
    rw [hg, sum_map_weight_mul_sub]
    have hsw : (rows.map (fun r => (r.weight : ℝ))).sum = sumWeights rows := rfl
    rw [hsw, div_mul_cancel₀ _ hWne, sub_self]
  · rw [hcom]
    have hg : (centerOfMass rows).getD 1 0
        = (rows.map (fun r => (r.weight : ℝ) * r.y)).sum / sumWeights rows := by
      simp [centerOfMass]
    rw [hg, sum_map_weight_mul_sub]
    have hsw : (rows.map (fun r => (r.weight : ℝ))).sum = sumWeights rows := rfl
    rw [hsw, div_mul_cancel₀ _ hWne, sub_self]
  · rw [hcom]
    have hg : (centerOfMass rows).getD 2 0
        = (rows.map (fun r => (r.weight : ℝ) * r.z)).sum / sumWeights rows := by
      simp [centerOfMass]
    rw [hg, sum_map_weight_mul_sub]
    have hsw : (rows.map (fun r => (r.weight : ℝ))).sum = sumWeights rows := rfl
    rw [hsw, div_mul_cancel₀ _ hWne, sub_self]
  · intro r hr
    rw [hcom, h2r]
    exact le_npMax_of_mem (List.mem_map_of_mem _ hr)
  · have hd : rows.map (fun r => euclid (centerOfMass rows) [r.x, r.y, r.z]) ≠ [] := by
      intro h0
      exact hne (List.map_eq_nil_iff.mp h0)
    obtain ⟨r, hr, heq⟩ := List.mem_map.mp (npMax_mem hd)
    exact ⟨r, hr, by rw [hcom, h2r, heq]⟩

/-- C6 witness: the hypotheses and the attained-maximum part of the
conclusion hold at the concrete one row cluster rows1. -/
theorem c6_centroid_and_radius_witness :
    rows1 ≠ [] ∧ 0 < sumWeights rows1
      ∧ (∃ r ∈ rows1,
          euclid ((computeCenterOfMassAndRadius rows1).1) [r.x, r.y, r.z]
            = 2 * rawRadius rows1) := by
  have h1 : rows1 ≠ [] := by simp [rows1]
  have h2 : 0 < sumWeights rows1 := by
    simp [rows1, sumWeights]
  exact ⟨h1, h2, (c6_centroid_and_radius rows1 h1 h2).2.2⟩

/-- C7: the radius returned by the reducer never falls below the type
dependent floor: for a nonempty cluster of uniform feature type it is at
least 1 when the type is Hydrophobic and at least 0.5 otherwise. -/
theorem c7_radius_floor (rows : List Row) (hne : rows ≠ []) (nm : String)
    (hnm : ∀ r ∈ rows, r.name = nm) :
    (nm = "Hydrophobic" → 1 ≤ (computeCenterOfMassAndRadius rows).2)
    ∧ (nm ≠ "Hydrophobic" → 0.5 ≤ (computeCenterOfMassAndRadius rows).2) := by
  have hmem : "Hydrophobic" ∈ rows.map (fun r => r.name) ↔ nm = "Hydrophobic" := by
    constructor
    · intro hh
      obtain ⟨r, hr, hrn⟩ := List.mem_map.mp hh
      rw [← hnm r hr, hrn]
    · intro he
      cases rows with
      | nil => exact absurd rfl hne
      | cons r rs =>
        refine List.mem_map.mpr ⟨r, List.mem_cons_self r rs, ?_⟩
        rw [hnm r (List.mem_cons_self r rs), he]
  have h2nd : (computeCenterOfMassAndRadius rows).2
      = (if rawRadius rows < 1 ∧ "Hydrophobic" ∈ rows.map (fun r => r.name) then 1
         else if rawRadius rows < 0.5 ∧ ¬("Hydrophobic" ∈ rows.map (fun r => r.name)) then 0.5
         else rawRadius rows) := rfl
  rw [h2nd]
  split_ifs with hA hB
  · constructor
    · intro _
      norm_num
    · intro _
      norm_num
  · constructor
    · intro hH
      exact absurd (hmem.mpr hH) hB.2
    · intro _
      norm_num
  · push_neg at hA hB
    constructor
    · intro hH
      exact le_of_not_lt (fun hlt => hA hlt (hmem.mpr hH))
    · intro hH
      exact le_of_not_lt (fun hlt => hH (hmem.mp (hB hlt)))

/-- C7 witness: the hypotheses and the non-Hydrophobic floor hold at the
concrete one row cluster rows1. -/
theorem c7_radius_floor_witness :
    rows1 ≠ [] ∧ (∀ r ∈ rows1, r.name = "Aromatic")
      ∧ (("Aromatic" : String) ≠ "Hydrophobic"
          → 0.5 ≤ (computeCenterOfMassAndRadius rows1).2) := by
  have h1 : rows1 ≠ [] := by simp [rows1]
  have h2 : ∀ r ∈ rows1, r.name = "Aromatic" := by
    simp [rows1]
  exact ⟨h1, h2, (c7_radius_floor rows1 h1 "Aromatic" h2).2⟩

/-- Flattening singleton blocks recovers the list. -/
lemma flatten_map_singleton : ∀ (l : List ℕ), (l.map (fun i => [i])).flatten = l := by
  intro l
  induction l with
  | nil => rfl
  | cons x xs ih => simp [ih]

lemma goodPartition_init (n : ℕ) : GoodPartition n (initPartition n) := by
  constructor
  · rw [initPartition, flatten_map_singleton]
  · intro blk hblk
    obtain ⟨i, _, rfl⟩ := List.mem_map.mp hblk
    simp

lemma goodPartition_mergeBlocks {n : ℕ} {part : List (List ℕ)}
    (h : GoodPartition n part) (a b : ℕ) : GoodPartition n (mergeBlocks part a b) := by
  obtain ⟨hperm, hne⟩ := h
  simp only [mergeBlocks]
  split_ifs with hcase
  · exact ⟨hperm, hne⟩
  · constructor
    · have hsplit : List.Perm
          (part.filter (fun blk => decide (a ∈ blk) || decide (b ∈ blk))
            ++ part.filter (fun blk => !(decide (a ∈ blk) || decide (b ∈ blk)))) part :=
        List.filter_append_perm _ part
      have h1 : (part.filter (fun blk => !(decide (a ∈ blk) || decide (b ∈ blk)))
            ++ [(part.filter (fun blk => decide (a ∈ blk) || decide (b ∈ blk))).flatten]).flatten
          = (part.filter (fun blk => !(decide (a ∈ blk) || decide (b ∈ blk)))).flatten
            ++ (part.filter (fun blk => decide (a ∈ blk) || decide (b ∈ blk))).flatten := by
        simp
      rw [h1]
      apply List.Perm.trans List.perm_append_comm
      rw [← List.flatten_append]
      exact List.Perm.trans hsplit.flatten hperm
    · intro blk hblk
      rcases List.mem_append.mp hblk with hrest | hlast
      · exact hne blk (List.mem_of_mem_filter hrest)
      · rw [List.mem_singleton.mp hlast]
        intro hflat
        apply hcase
        cases htouched : part.filter (fun blk => decide (a ∈ blk) || decide (b ∈ blk)) with
        | nil => rfl
        | cons tb rest =>
          exfalso
          have htb : tb = [] := by
            have hall := List.flatten_eq_nil_iff.mp (by rw [htouched] at hflat; exact hflat)
            exact hall tb (List.mem_cons_self tb rest)
          have htbmem : tb ∈ part := by
            apply List.mem_of_mem_filter
            rw [htouched]
            exact List.mem_cons_self tb rest
          exact hne tb htbmem htb

lemma goodPartition_cutPartition (steps : List LinkStep) (t : ℝ) (n : ℕ) :
    GoodPartition n (cutPartition steps t n) := by
  rw [cutPartition]
  have hgen : ∀ (ss : List LinkStep) (part : List (List ℕ)), GoodPartition n part →
      GoodPartition n (ss.foldl
        (fun part st =>
          if st.height ≤ t then mergeBlocks part (st.left.headD 0) (st.right.headD 0) else part)
        part) := by
    intro ss
    induction ss with
    | nil => intro part h; exact h
    | cons st sts ih =>
      intro part h
      rw [List.foldl_cons]
      apply ih
      split_ifs with hh
      · exact goodPartition_mergeBlocks h _ _
      · exact h
  exact hgen steps (initPartition n) (goodPartition_init n)

lemma findIdx_eq_of_first {α : Type} (p : α → Bool) :
    ∀ (l : List α) (i : ℕ) (hi : i < l.length), p l[i] = true →
      (∀ j (hj : j < l.length), j < i → p l[j] = false) → l.findIdx p = i := by
  intro l
  induction l with
  | nil => intro i hi; simp at hi
  | cons x xs ih =>
    intro i hi hp hmin
    cases i with
    | zero =>
      rw [List.findIdx_cons]
      simp only [List.getElem_cons_zero] at hp
      rw [hp]
      rfl
    | succ i' =>
      have h0 : p x = false := by
        have := hmin 0 (by simp) (by omega)
        simpa using this
      rw [List.findIdx_cons, h0]
      simp only [cond_false]
      have hi' : i' < xs.length := by simpa using hi
      have hp' : p xs[i'] = true := by simpa using hp
      have hmin' : ∀ j (hj : j < xs.length), j < i' → p xs[j] = false := by
        intro j hj hji
        have := hmin (j + 1) (by simpa using hj) (by omega)
        simpa using this
      rw [ih i' hi' hp' hmin']

/-- C8: in a type group with more than 2 points every point receives exactly
one cluster id, and the ids used are exactly 1..k for some k at least 1: all
ids lie in [1, k] and every value in [1, k] occurs. -/
theorem c8_cluster_ids_dense (pts : List Point) (h : 2 < pts.length) :
    1 ≤ numClusters pts
    ∧ (clusterIdsOf pts).length = pts.length
    ∧ (∀ c ∈ clusterIdsOf pts, 1 ≤ c ∧ c ≤ numClusters pts)
    ∧ (∀ j, 1 ≤ j → j ≤ numClusters pts → j ∈ clusterIdsOf pts) := by
  obtain ⟨hperm, hblkne⟩ :=
    goodPartition_cutPartition (linkageOf (dmOf pts) pts.length) (cutThreshold pts) pts.length
  have hids : clusterIdsOf pts = (List.range pts.length).map
      (fun i => (cutPartition (linkageOf (dmOf pts) pts.length) (cutThreshold pts)
        pts.length).findIdx (fun blk => decide (i ∈ blk)) + 1) := by
    rw [clusterIdsOf, fcluster]
  have hnum : numClusters pts = (cutPartition (linkageOf (dmOf pts) pts.length)
      (cutThreshold pts) pts.length).length := by
    rw [numClusters]
  have hnd : (cutPartition (linkageOf (dmOf pts) pts.length) (cutThreshold pts)
      pts.length).flatten.Nodup :=
    hperm.nodup_iff.mpr (List.nodup_range pts.length)
  have hdisj := (List.nodup_flatten.mp hnd).2
  refine ⟨?_, ?_, ?_, ?_⟩
  · rw [hnum]
    by_contra h0
    have hz : (cutPartition (linkageOf (dmOf pts) pts.length) (cutThreshold pts)
        pts.length) = [] := by
      cases hc : (cutPartition (linkageOf (dmOf pts) pts.length) (cutThreshold pts)
          pts.length) with
      | nil => rfl
      | cons y ys => rw [hc] at h0; simp at h0
    rw [hz] at hperm
    have := hperm.length_eq
    simp at this
    omega
  · rw [hids]
    simp
  · intro c hc
    rw [hids] at hc
    obtain ⟨i, hir, rfl⟩ := List.mem_map.mp hc
    have hi : i < pts.length := List.mem_range.mp hir
    have hflat : i ∈ (cutPartition (linkageOf (dmOf pts) pts.length) (cutThreshold pts)
        pts.length).flatten := hperm.mem_iff.mpr (List.mem_range.mpr hi)
    obtain ⟨blk, hblk, hib⟩ := List.mem_flatten.mp hflat
    have hfind := List.findIdx_lt_length_of_exists (p := fun blk => decide (i ∈ blk))
      ⟨blk, hblk, by simpa using hib⟩
    rw [hnum]
    omega
  · intro j h1j hjle
    rw [hnum] at hjle
    have hidx : j - 1 < (cutPartition (linkageOf (dmOf pts) pts.length) (cutThreshold pts)
        pts.length).length := by omega
    have hblkmem := List.getElem_mem hidx
    obtain ⟨i, hib⟩ := List.exists_mem_of_ne_nil _ (hblkne _ hblkmem)
    have hin : i < pts.length := by
      have hflat : i ∈ (cutPartition (linkageOf (dmOf pts) pts.length) (cutThreshold pts)
          pts.length).flatten := List.mem_flatten.mpr ⟨_, hblkmem, hib⟩
      exact List.mem_range.mp (hperm.mem_iff.mp hflat)
    have hfindeq : (cutPartition (linkageOf (dmOf pts) pts.length) (cutThreshold pts)
        pts.length).findIdx (fun blk => decide (i ∈ blk)) = j - 1 := by
      apply findIdx_eq_of_first _ _ _ hidx (by simpa using hib)
      intro j' hj' hj'lt
      simp only [decide_eq_false_iff_not]
      intro hcontra
      have hd := List.pairwise_iff_getElem.mp hdisj j' (j - 1) hj' hidx hj'lt
      exact hd hcontra hib
    rw [hids]
    apply List.mem_map.mpr
    refine ⟨i, List.mem_range.mpr hin, ?_⟩
    rw [hfindeq]
    omega

/-- C8 witness: the hypothesis and conclusion hold at the concrete three
point table tbl3. -/
theorem c8_cluster_ids_dense_witness :
    2 < tbl3.length ∧
      (1 ≤ numClusters tbl3
       ∧ (clusterIdsOf tbl3).length = tbl3.length
       ∧ (∀ c ∈ clusterIdsOf tbl3, 1 ≤ c ∧ c ≤ numClusters tbl3)
       ∧ (∀ j, 1 ≤ j → j ≤ numClusters tbl3 → j ∈ clusterIdsOf tbl3)) :=
  ⟨by decide, c8_cluster_ids_dense tbl3 (by decide)⟩

/-- Square root of 4 evaluates to 2. -/
lemma sqrt_four : Real.sqrt 4 = 2 := by
  rw [show (4 : ℝ) = 2 ^ 2 by norm_num, Real.sqrt_sq (by norm_num)]

/-- On the three collinear points the distance matrix is the expected
integer matrix. -/
lemma matrix_tbl3 : distance_matrix tbl3 = [[0, 1, 2], [1, 0, 1], [2, 1, 0]] := by
  simp only [distance_matrix, tbl3, pointRow, euclid, sqDiffSum, List.map]
  norm_num [Real.sqrt_eq_zero, Real.sqrt_one, sqrt_four]

/-- On the three collinear points the condensed list fed to the linkage is
the distances between the rows of the distance matrix, not its entries. -/
lemma dm_tbl3 : dmOf tbl3 = [Real.sqrt 3, Real.sqrt 8, Real.sqrt 3] := by
  rw [dmOf, matrix_tbl3]
  simp only [pdist, euclid, sqDiffSum, List.map]
  norm_num

/-- Maximum of the condensed list on the three collinear points. -/
lemma npMax_dm_tbl3 : npMax (dmOf tbl3) = Real.sqrt 8 := by
  rw [dm_tbl3, npMax]
  have h38 : Real.sqrt 3 ≤ Real.sqrt 8 := Real.sqrt_le_sqrt (by norm_num)
  simp only [List.foldl_cons, List.foldl_nil]
  rw [max_eq_right h38, max_eq_left h38]

/-- Upper triangle of the distance matrix on the three collinear points. -/
lemma condensed_tbl3 : condensedForm 0 (distance_matrix tbl3) = [1, 2, 1] := by
  rw [matrix_tbl3]
  simp [condensedForm]

/-- Square root of 8 is below 3. -/
lemma sqrt_eight_lt_three : Real.sqrt 8 < 3 := by
  have h : Real.sqrt 8 < Real.sqrt 9 := Real.sqrt_lt_sqrt (by norm_num) (by norm_num)
  rwa [show (9 : ℝ) = 3 ^ 2 by norm_num, Real.sqrt_sq (by norm_num)] at h

/-- C2: the claim says the dendrogram is cut at h_dist times the maximum
pairwise point distance.  The code cuts at the hardcoded
0.17 * max(pdist(D)) instead, never reading h_dist: on the three collinear
points with h_dist = 0.5 the threshold the code uses (0.17 * sqrt 8, about
0.48) differs from the claimed 0.5 * 2 = 1. -/
theorem c2_threshold_ignores_h_dist :
    cutThreshold tbl3 ≠ 0.5 * npMax (condensedForm 0 (distance_matrix tbl3)) := by
  rw [cutThreshold, npMax_dm_tbl3, condensed_tbl3]
  have hmax : npMax [(1 : ℝ), 2, 1] = 2 := by
    rw [npMax]
    simp only [List.foldl_cons, List.foldl_nil]
    norm_num
  rw [hmax]
  have h0 : (0 : ℝ) ≤ Real.sqrt 8 := Real.sqrt_nonneg 8
  have h3 := sqrt_eight_lt_three
  apply ne_of_lt
  nlinarith

/-- C3 counterexample: on the three collinear points the distances fed to
the linkage differ from the off-diagonal entries of the distance matrix: the
first condensed entry is sqrt 3, the first upper-triangle entry is 1. -/
theorem c3_counterexample_pdist_not_upper_triangle :
    dmOf tbl3 ≠ condensedForm 0 (distance_matrix tbl3) := by
  rw [dm_tbl3, condensed_tbl3]
  intro hcontra
  have h1 : Real.sqrt 3 = 1 := List.head_eq_of_cons_eq hcontra
  have h2 : Real.sqrt 1 < Real.sqrt 3 := Real.sqrt_lt_sqrt (by norm_num) (by norm_num)
  rw [Real.sqrt_one, h1] at h2
  exact lt_irrefl 1 h2

/-- Row distances of a tail matrix embed into the row distances of the whole
matrix at shifted indices. -/
lemma rowDistAt_cons_succ (r : List ℝ) (rs : List (List ℝ)) (i j : ℕ) :
    rowDistAt (r :: rs) (i + 1) (j + 1) = rowDistAt rs i j := by
  simp [rowDistAt, List.getD_cons_succ]

/-- Row distance from the head row to a tail row. -/
lemma rowDistAt_cons_zero_succ (r : List ℝ) (rs : List (List ℝ)) (j : ℕ) :
    rowDistAt (r :: rs) 0 (j + 1) = euclid r (rs.getD j []) := by
  simp [rowDistAt, List.getD_cons_zero, List.getD_cons_succ]

/-- Recursive pdist agrees with the index-based description: its entries are
the Euclidean distances between rows i and j of its argument for all i < j
in condensed order. -/
lemma pdist_eq_row_distances : ∀ (M : List (List ℝ)), pdist M = amendedDm M := by
  intro M
  induction M with
  | nil => simp [pdist, amendedDm]
  | cons r rs ih =>
    rw [pdist, amendedDm, List.length_cons, List.range_succ_eq_map, List.map_cons,
      List.flatten_cons]
    congr 1
    · simp only [List.drop_succ_cons, List.drop_zero, List.map_map]
      have h1 : ∀ j ∈ List.range rs.length,
          ((fun j => rowDistAt (r :: rs) 0 j) ∘ Nat.succ) j = euclid r (rs.getD j []) := by
        intro j _
        simp only [Function.comp_def]
        exact rowDistAt_cons_zero_succ r rs j
      rw [List.map_congr_left h1]
      have h2 : (List.range rs.length).map (fun j => euclid r (rs.getD j []))
          = ((List.range rs.length).map (fun j => rs.getD j [])).map (fun v => euclid r v) := by
        rw [List.map_map]
        rfl
      rw [h2, range_map_getD]
    · rw [ih, amendedDm, List.map_map]
      congr 1
      apply List.map_congr_left
      intro i _
      simp only [Function.comp_def, List.drop_succ_cons]
      rw [← List.map_drop, List.map_map]
      apply List.map_congr_left
      intro j _
      simp only [Function.comp_def]
      exact rowDistAt_cons_succ r rs i j

/-- C3 amended: the pairwise distances fed to the linkage are scipy pdist
applied to the square distance matrix itself, i.e. the Euclidean distances
between the rows of that matrix for all i < j in condensed order (in general
not its off-diagonal entries). -/
theorem c3_amended_linkage_input :
    ∀ (pts : List Point), dmOf pts = amendedDm (distance_matrix pts) := by
  intro pts
  rw [dmOf]
  exact pdist_eq_row_distances (distance_matrix pts)

end PyPharmer
